import Mathlib

/-!
Verification of the Kalman-filter toolkit (`KalmanFilter` class:
`evolve`, `estimate`, `predict`, `rewind`) as a shallow embedding over ℚ.

Machine floats are modelled by exact rationals.  The Gaussian noise draws of
`evolve` are modelled by injected sequences `w`, `v` (one draw per loop
iteration); a raised exception (`scipy.linalg.inv` on a singular matrix, a
numpy shape mismatch, a failing `reshape`) is modelled by an `Option` result
of `none`.

The matrix branch (`one_d = False`) of each operation works on
`Matrix (Fin n) (Fin m) ℚ`; the scalar branch (`one_d = True`) works on plain
rationals.  Both are translated separately, mirroring the two code paths.
-/

open Matrix

abbrev Vec (k : ℕ) := Fin k → ℚ

abbrev Mat (r c : ℕ) := Matrix (Fin r) (Fin c) ℚ

/-- Computable matrix inverse over ℚ, modelling `scipy.linalg.inv` on a
nonsingular input: the adjugate formula `A⁻¹ = det(A)⁻¹ • adj(A)`.  It agrees
with Mathlib's `Matrix.inv` (see `minv_eq_inv`). -/
def minv {k : ℕ} (A : Mat k k) : Mat k k := (A.det)⁻¹ • A.adjugate

theorem minv_eq_inv {k : ℕ} (A : Mat k k) : minv A = A⁻¹ := by
  rw [Matrix.inv_def, Ring.inverse_eq_inv']
  rfl

/-- The model data handed to `KalmanFilter.__init__` in matrix mode
(`one_d = False`): transition `F`, process-noise covariance `Q`, observation
matrix `H`, observation-noise covariance `R`, control vector `u`. -/
structure Model (n m : ℕ) where
  F : Mat n n
  Q : Mat n n
  H : Mat m n
  R : Mat m m
  u : Vec n

/-- The model data in scalar mode (`one_d = True`): all parameters are plain
numbers. -/
structure Model1 where
  F : ℚ
  Q : ℚ
  H : ℚ
  R : ℚ
  u : ℚ

/-- The state reached after `t` iterations of the matrix-mode `evolve` loop
body `x1 = F @ x0 + u + w`, with injected noise draws `w`. -/
def trueState {n m : ℕ} (M : Model n m) (x0 : Vec n) (w : ℕ → Vec n) : ℕ → Vec n
  | 0 => x0
  | t + 1 => M.F *ᵥ trueState M x0 w t + M.u + w t

/-- `KalmanFilter.evolve`, matrix branch.  The loop body draws the process
noise with the hardcoded mean `np.array([0,0,0,0])` against the n×n matrix
`Q`, and the observation noise with the hardcoded mean `np.array([0,0])`
against the m×m matrix `R`; `np.random.multivariate_normal` raises on the
first iteration unless `n = 4` and `m = 2`, so any call with `N ≥ 1` and
other dimensions fails.  Each iteration appends `x1 = F @ x0 + u + w` to the
state list and `z1 = H @ x0 + v` (the pre-transition state) to the
observation list, then advances `x0`. -/
def evolveMat {n m : ℕ} (M : Model n m) (x0 : Vec n) (N : ℕ) (w : ℕ → Vec n) (v : ℕ → Vec m) :
    Option (List (Vec n) × List (Vec m)) :=
  if 0 < N ∧ ¬(n = 4 ∧ m = 2) then none
  else some ((List.range (N + 1)).map (trueState M x0 w),
    (List.range N).map (fun t => M.H *ᵥ trueState M x0 w t + v t))

/-- `KalmanFilter.evolve`, scalar branch.  The loop body computes
`x1 = F * x0 + u + w` and `z1 = H * x0 + v` but never reassigns `x0`, so every
appended state and observation is computed from the initial state. -/
def evolve1d (M : Model1) (x0 : ℚ) (N : ℕ) (w v : ℕ → ℚ) : List ℚ × List ℚ :=
  (x0 :: (List.range N).map (fun t => M.F * x0 + M.u + w t),
    (List.range N).map (fun t => M.H * x0 + v t))

/-- One iteration of the `KalmanFilter.estimate` loop, matrix branch:
predict, innovation, innovation covariance `Sk`, gain `Kk`, update.
`scipy.linalg.inv Sk` raises when `Sk` is singular, modelled by `none`. -/
def estStep {n m : ℕ} (M : Model n m) (x0 : Vec n) (P0 : Mat n n) (zi : Vec m) :
    Option (Vec n × Mat n n) :=
  let new_x := M.F *ᵥ x0 + M.u
  let new_P := M.F * P0 * M.Fᵀ + M.Q
  let y_t := zi - M.H *ᵥ new_x
  let Sk := M.H * new_P * M.Hᵀ + M.R
  if Sk.det = 0 then none
  else
    let Kk := new_P * M.Hᵀ * minv Sk
    some (new_x + Kk *ᵥ y_t, (1 - Kk * M.H) * new_P)

/-- `KalmanFilter.estimate`, matrix branch: the loop threads `(x0, P0)`
through `estStep` and collects the post-update pairs; a singular `Sk` at any
step aborts the whole call with no partial output. -/
def estimate {n m : ℕ} (M : Model n m) (x0 : Vec n) (P0 : Mat n n) :
    List (Vec m) → Option (List (Vec n) × List (Mat n n))
  | [] => some ([], [])
  | zi :: rest =>
    match estStep M x0 P0 zi with
    | none => none
    | some (fx, fP) =>
      match estimate M fx fP rest with
      | none => none
      | some (outs, Ps) => some (fx :: outs, fP :: Ps)

/-- One iteration of the `KalmanFilter.estimate` loop, scalar branch.
`1 / Sk` fails for `Sk = 0`, modelled by `none`. -/
def estStep1 (M : Model1) (x0 P0 zi : ℚ) : Option (ℚ × ℚ) :=
  let new_x := M.F * x0 + M.u
  let new_P := M.F ^ 2 * P0 + M.Q
  let y_t := zi - M.H * new_x
  let Sk := M.H ^ 2 * new_P + M.R
  if Sk = 0 then none
  else
    let Kk := new_P * M.H * (1 / Sk)
    some (new_x + Kk * y_t, (1 - Kk * M.H) * new_P)

/-- `KalmanFilter.estimate`, scalar branch. -/
def estimate1d (M : Model1) (x0 P0 : ℚ) : List ℚ → Option (List ℚ × List ℚ)
  | [] => some ([], [])
  | zi :: rest =>
    match estStep1 M x0 P0 zi with
    | none => none
    | some (fx, fP) =>
      match estimate1d M fx fP rest with
      | none => none
      | some (outs, Ps) => some (fx :: outs, fP :: Ps)

/-- The state after `i` noise-free applications of the transition, as built
by the `KalmanFilter.predict` loop body `new_x.append(F @ new_x[-1] + u)`. -/
def predictState {n m : ℕ} (M : Model n m) (x : Vec n) : ℕ → Vec n
  | 0 => x
  | i + 1 => M.F *ᵥ predictState M x i + M.u

/-- `KalmanFilter.predict`, matrix branch: starts from `[x]`, appends
`F @ last + u` exactly `k - 1` times, then reshapes to `(k, n)`.  For `k = 0`
the list still holds one element and `reshape((0, n))` raises, modelled by
`none`. -/
def predictMat {n m : ℕ} (M : Model n m) (x : Vec n) (k : ℕ) : Option (List (Vec n)) :=
  if k = 0 then none
  else some ((List.range k).map (predictState M x))

/-- The scalar analogue of `predictState`. -/
def predictState1 (M : Model1) (x : ℚ) : ℕ → ℚ
  | 0 => x
  | i + 1 => M.F * predictState1 M x i + M.u

/-- `KalmanFilter.predict`, scalar branch: no reshape, so the returned list
always holds `k - 1` appended elements after the initial one. -/
def predict1d (M : Model1) (x : ℚ) (k : ℕ) : List ℚ :=
  (List.range (k - 1 + 1)).map (predictState1 M x)

/-- The state after `i` backward applications of the inverted transition, as
built by the `KalmanFilter.rewind` loop body
`new_x.append(inv(F) @ (new_x[-1] - u))`. -/
def rewindState {n m : ℕ} (M : Model n m) (x : Vec n) : ℕ → Vec n
  | 0 => x
  | i + 1 => minv M.F *ᵥ (rewindState M x i - M.u)

/-- `KalmanFilter.rewind`, matrix branch.  `inv(F)` is evaluated inside the
loop, so a singular `F` only raises when the loop body runs at least once,
i.e. when `k ≥ 2`; the final `reshape((k, n))` raises for `k = 0`. -/
def rewindMat {n m : ℕ} (M : Model n m) (x : Vec n) (k : ℕ) : Option (List (Vec n)) :=
  if k = 0 then none
  else if M.F.det = 0 ∧ 2 ≤ k then none
  else some ((List.range k).map (rewindState M x))

/-- The scalar analogue of `rewindState`. -/
def rewindState1 (M : Model1) (x : ℚ) : ℕ → ℚ
  | 0 => x
  | i + 1 => 1 / M.F * (rewindState1 M x i - M.u)

/-- `KalmanFilter.rewind`, scalar branch: `1 / F` fails for `F = 0` once the
loop body runs. -/
def rewind1d (M : Model1) (x : ℚ) (k : ℕ) : Option (List ℚ) :=
  if M.F = 0 ∧ 2 ≤ k then none
  else some ((List.range (k - 1 + 1)).map (rewindState1 M x))

/-- One step of the Kalman recursion exactly as the specification words it:
predict `x⁻ = F·x + u`, `P⁻ = F·P·Fᵗ + Q`; innovation `y = z − H·x⁻`;
`S = H·P⁻·Hᵗ + R`; gain `K = P⁻·Hᵗ·S⁻¹`; update `x = x⁻ + K·y`,
`P = (I − K·H)·P⁻`.  (`minv S` is `S⁻¹`, by `minv_eq_inv`.) -/
def kalmanStep {n m : ℕ} (M : Model n m) (p : Vec n × Mat n n) (zi : Vec m) :
    Vec n × Mat n n :=
  let xPred := M.F *ᵥ p.1 + M.u
  let PPred := M.F * p.2 * M.Fᵀ + M.Q
  let y := zi - M.H *ᵥ xPred
  let S := M.H * PPred * M.Hᵀ + M.R
  let K := PPred * M.Hᵀ * minv S
  (xPred + K *ᵥ y, (1 - K * M.H) * PPred)

/-- The Kalman recursion iterated from `(x0, P0)` along the observation list
`z` (observation `i` feeds step `i + 1`). -/
def kalmanRec {n m : ℕ} (M : Model n m) (x0 : Vec n) (P0 : Mat n n) (z : List (Vec m)) :
    ℕ → Vec n × Mat n n
  | 0 => (x0, P0)
  | i + 1 => kalmanStep M (kalmanRec M x0 P0 z i) (z.getD i 0)

/-- The covariance half of `kalmanStep`; it does not depend on the state or
the observation. -/
def covStep {n m : ℕ} (M : Model n m) (P : Mat n n) : Mat n n :=
  let PPred := M.F * P * M.Fᵀ + M.Q
  let S := M.H * PPred * M.Hᵀ + M.R
  let K := PPred * M.Hᵀ * minv S
  (1 - K * M.H) * PPred

/-- The autonomous covariance recursion of the filter. -/
def covIter {n m : ℕ} (M : Model n m) (P0 : Mat n n) : ℕ → Mat n n
  | 0 => P0
  | i + 1 => covStep M (covIter M P0 i)

/-- The innovation covariance `S` that step `i + 1` of `estimate` inverts;
it is determined by `P0` alone. -/
def innovCov {n m : ℕ} (M : Model n m) (P0 : Mat n n) (i : ℕ) : Mat m m :=
  M.H * (M.F * covIter M P0 i * M.Fᵀ + M.Q) * M.Hᵀ + M.R

/-- Symmetric positive semi-definiteness over ℚ. -/
def IsPSD {k : ℕ} (A : Mat k k) : Prop :=
  Aᵀ = A ∧ ∀ x : Vec k, 0 ≤ x ⬝ᵥ (A *ᵥ x)

/-! Helper lemmas about indexed access to mapped ranges. -/

theorem map_range_getD {α : Type} (f : ℕ → α) (k i : ℕ) (d : α) (hi : i < k) :
    ((List.range k).map f).getD i d = f i := by
  rw [List.getD_eq_getElem?_getD, List.getElem?_map, List.getElem?_range hi]
  rfl

theorem map_range_reverse {α : Type} (f : ℕ → α) (k : ℕ) :
    ((List.range k).map f).reverse = (List.range k).map (fun i => f (k - 1 - i)) := by
  apply List.ext_getElem
  · simp
  · intro i h1 h2
    simp only [List.length_reverse, List.length_map, List.length_range] at h1 h2
    rw [List.getElem_reverse]
    simp only [List.getElem_map, List.getElem_range, List.length_map, List.length_range]

theorem map_range_getLast? {α : Type} (f : ℕ → α) (k : ℕ) (hk : 1 ≤ k) :
    ((List.range k).map f).getLast? = some (f (k - 1)) := by
  obtain ⟨j, rfl⟩ : ∃ j, k = j + 1 := ⟨k - 1, by omega⟩
  rw [List.range_succ, List.map_append]
  simp

/-! Bridging lemmas between the translated code and the specification-side
recursions. -/

theorem estStep_eq {n m : ℕ} (M : Model n m) (x : Vec n) (P : Mat n n) (zi : Vec m) :
    estStep M x P zi =
      if (innovCov M P 0).det = 0 then none else some (kalmanStep M (x, P) zi) := rfl

theorem kalmanStep_snd {n m : ℕ} (M : Model n m) (p : Vec n × Mat n n) (zi : Vec m) :
    (kalmanStep M p zi).2 = covStep M p.2 := rfl

theorem kalmanRec_cons {n m : ℕ} (M : Model n m) (x0 : Vec n) (P0 : Mat n n)
    (zi : Vec m) (rest : List (Vec m)) (i : ℕ) :
    kalmanRec M x0 P0 (zi :: rest) (i + 1) =
      kalmanRec M (kalmanStep M (x0, P0) zi).1 (kalmanStep M (x0, P0) zi).2 rest i := by
  induction i with
  | zero => simp [kalmanRec]
  | succ i ih =>
    have h : kalmanRec M x0 P0 (zi :: rest) (i + 1 + 1) =
        kalmanStep M (kalmanRec M x0 P0 (zi :: rest) (i + 1)) ((zi :: rest).getD (i + 1) 0) :=
      rfl
    rw [h, ih, List.getD_cons_succ]
    rfl

theorem covIter_shift {n m : ℕ} (M : Model n m) (P0 : Mat n n) (i : ℕ) :
    covIter M P0 (i + 1) = covIter M (covStep M P0) i := by
  induction i with
  | zero => rfl
  | succ i ih => rw [covIter, ih, covIter]

theorem innovCov_shift {n m : ℕ} (M : Model n m) (P0 : Mat n n) (i : ℕ) :
    innovCov M P0 (i + 1) = innovCov M (covStep M P0) i := by
  rw [innovCov, innovCov, covIter_shift]

/-! Concrete example models used by witnesses and counterexamples. -/

/-- A 1-dimensional example model: F = (2), Q = 0, H = (1), R = I, u = (1). -/
def exM : Model 1 1 := ⟨!![2], 0, !![1], 1, ![1]⟩

/-- Scalar-mode parameters F = 1, Q = 0, H = 1, R = 0, u = 1. -/
def bugM1 : Model1 := ⟨1, 0, 1, 0, 1⟩

/-- The same parameters as `bugM1` packaged as 1×1 matrices. -/
def bugM1m : Model 1 1 := ⟨!![1], 0, !![1], 0, ![1]⟩

/-- C6: for every state `x` and horizon `k ≥ 1`, `predict` returns exactly `k`
states in chronologically forward order: element 0 equals the input state `x`
and element `i + 1` equals `F·(element i) + u`. -/
theorem predict_forward_recursion {n m : ℕ} (M : Model n m) (x : Vec n) (k : ℕ)
    (hk : 1 ≤ k) :
    ∃ l : List (Vec n), predictMat M x k = some l ∧ l.length = k ∧
      l.getD 0 0 = x ∧
      ∀ i : ℕ, i + 1 < k → l.getD (i + 1) 0 = M.F *ᵥ l.getD i 0 + M.u := by
  refine ⟨(List.range k).map (predictState M x), ?_, by simp, ?_, ?_⟩
  · rw [predictMat, if_neg (by omega)]
  · rw [map_range_getD _ _ _ _ (by omega)]
    rfl
  · intro i hi
    rw [map_range_getD _ _ _ _ hi, map_range_getD _ _ _ _ (by omega)]
    rfl

theorem predict_forward_recursion_witness :
    ∃ l : List (Vec 1), predictMat exM ![3] 2 = some l ∧ l.length = 2 ∧
      l.getD 0 0 = ![3] ∧
      ∀ i : ℕ, i + 1 < 2 → l.getD (i + 1) 0 = exM.F *ᵥ l.getD i 0 + exM.u :=
  predict_forward_recursion exM ![3] 2 (by norm_num)

/-- C10: the matrix branch of `evolve` hardcodes a length-4 process-noise mean
and a length-2 observation-noise mean, so for any other dimensions it fails as
soon as the loop body runs (`N ≥ 1`); when `n = 4` and `m = 2` the error
branch is unreachable and the full state and observation sequences are
returned. -/
theorem evolve_hardcoded_dims {n m : ℕ} (M : Model n m) (x0 : Vec n) (N : ℕ)
    (w : ℕ → Vec n) (v : ℕ → Vec m) :
    (1 ≤ N ∧ ¬(n = 4 ∧ m = 2) → evolveMat M x0 N w v = none) ∧
    ((n = 4 ∧ m = 2) ∨ N = 0 →
      evolveMat M x0 N w v =
        some ((List.range (N + 1)).map (trueState M x0 w),
          (List.range N).map (fun t => M.H *ᵥ trueState M x0 w t + v t))) := by
  constructor
  · rintro ⟨h1, h2⟩
    rw [evolveMat, if_pos ⟨h1, h2⟩]
  · rintro (h | h)
    · rw [evolveMat, if_neg (by tauto)]
    · subst h
      rw [evolveMat, if_neg (by simp)]

/-- C3 (code bug): the scalar branch of `evolve` never reassigns `x0`, so with
F = 1, u = 1 and zero noise, starting from x0 = 0 it returns the state list
[0, 1, 1], whose element 2 is not `F·(element 1) + u = 2`. -/
theorem evolve1d_stuck_state :
    (evolve1d bugM1 0 2 (fun _ => 0) (fun _ => 0)).1 = [0, 1, 1] ∧
    (evolve1d bugM1 0 2 (fun _ => 0) (fun _ => 0)).1.getD 2 0 ≠
      bugM1.F * (evolve1d bugM1 0 2 (fun _ => 0) (fun _ => 0)).1.getD 1 0 + bugM1.u := by
  have h : (evolve1d bugM1 0 2 (fun _ => 0) (fun _ => 0)).1 = [0, 1, 1] := by
    norm_num [evolve1d, bugM1, List.range_succ]
  refine ⟨h, ?_⟩
  rw [h]
  norm_num [bugM1]

/-- C2 (code bug): running the `bugM1` parameters as 1×1 matrices through the
matrix path of `evolve` fails outright (hardcoded 4- and 2-dimensional noise
means), and the scalar path returns a state list [0, 1, 1] different from the
state recursion of the matrix path, which gives [0, 1, 2]. -/
theorem scalar_matrix_paths_diverge :
    evolveMat bugM1m ![0] 2 (fun _ => 0) (fun _ => 0) = none ∧
    (evolve1d bugM1 0 2 (fun _ => 0) (fun _ => 0)).1 ≠
      (List.range 3).map (fun t => trueState bugM1m ![0] (fun _ => 0) t 0) := by
  constructor
  · rw [evolveMat, if_pos ⟨by norm_num, by norm_num⟩]
  · have hs : (evolve1d bugM1 0 2 (fun _ => 0) (fun _ => 0)).1 = [0, 1, 1] := by
      norm_num [evolve1d, bugM1, List.range_succ]
    have h1 : trueState bugM1m ![0] (fun _ => 0) 1 = ![1] := by
      funext j
      fin_cases j
      norm_num [trueState, bugM1m, Matrix.mulVec, Matrix.dotProduct, Fin.sum_univ_succ]
    have h2 : trueState bugM1m ![0] (fun _ => 0) 2 = ![2] := by
      funext j
      fin_cases j
      rw [show (2 : ℕ) = 1 + 1 from rfl, trueState, h1]
      norm_num [bugM1m, Matrix.mulVec, Matrix.dotProduct, Fin.sum_univ_succ,
        Matrix.vecHead, Function.comp]
    have hm :
        (List.range 3).map (fun t => trueState bugM1m ![0] (fun _ => 0) t 0) = [0, 1, 2] := by
      rw [show List.range 3 = [0, 1, 2] from rfl]
      simp only [List.map_cons, List.map_nil, h1, h2]
      norm_num [trueState]
    rw [hs, hm]
    simp

/-- A model with singular transition: F = 0 (1×1). -/
def singM : Model 1 1 := ⟨0, 0, !![1], 1, ![0]⟩

/-- C7 counterexample: F is singular, yet `rewind` with k = 1 succeeds and
returns [x], because `inv(F)` is only evaluated inside the loop body, which
runs k − 1 = 0 times. -/
theorem rewind_singular_k1_succeeds :
    singM.F.det = 0 ∧ rewindMat singM ![5] 1 = some [![5]] := by
  constructor
  · norm_num [singM, Matrix.det_fin_one]
  · rw [rewindMat, if_neg (by norm_num), if_neg (by norm_num)]
    rfl

/-- C7 (amended): for every state `x` and `k ≥ 1`, if F is invertible then
`rewind` returns exactly `k` states whose first element is `x` and whose
element `i + 1` is `F⁻¹·(element i − u)`; if F is singular the call fails
precisely when `k ≥ 2` (for `k = 1` no inverse is computed and `[x]` is
returned). -/
theorem rewind_backward_recursion {n m : ℕ} (M : Model n m) (x : Vec n) (k : ℕ)
    (hk : 1 ≤ k) :
    (M.F.det ≠ 0 →
      ∃ l : List (Vec n), rewindMat M x k = some l ∧ l.length = k ∧
        l.getD 0 0 = x ∧
        ∀ i : ℕ, i + 1 < k → l.getD (i + 1) 0 = M.F⁻¹ *ᵥ (l.getD i 0 - M.u)) ∧
    (M.F.det = 0 → 2 ≤ k → rewindMat M x k = none) := by
  constructor
  · intro hdet
    refine ⟨(List.range k).map (rewindState M x), ?_, by simp, ?_, ?_⟩
    · rw [rewindMat, if_neg (by omega), if_neg (by tauto)]
    · rw [map_range_getD _ _ _ _ (by omega)]
      rfl
    · intro i hi
      rw [map_range_getD _ _ _ _ hi, map_range_getD _ _ _ _ (by omega)]
      rw [show rewindState M x (i + 1) = minv M.F *ᵥ (rewindState M x i - M.u) from rfl,
        minv_eq_inv]
  · intro hdet hk2
    rw [rewindMat, if_neg (by omega), if_pos ⟨hdet, hk2⟩]

theorem rewind_backward_recursion_witness :
    (exM.F.det ≠ 0 →
      ∃ l : List (Vec 1), rewindMat exM ![3] 2 = some l ∧ l.length = 2 ∧
        l.getD 0 0 = ![3] ∧
        ∀ i : ℕ, i + 1 < 2 → l.getD (i + 1) 0 = exM.F⁻¹ *ᵥ (l.getD i 0 - exM.u)) ∧
    (exM.F.det = 0 → 2 ≤ 2 → rewindMat exM ![3] 2 = none) :=
  rewind_backward_recursion exM ![3] 2 (by norm_num)

theorem map_range_congr {α : Type} (f g : ℕ → α) (k : ℕ) (h : ∀ i, i < k → f i = g i) :
    (List.range k).map f = (List.range k).map g := by
  apply List.ext_getElem
  · simp
  · intro i h1 h2
    simp only [List.getElem_map, List.getElem_range]
    exact h i (by simpa using h1)

theorem rewindState_predictState {n m : ℕ} (M : Model n m) (hdet : M.F.det ≠ 0)
    (x : Vec n) (j : ℕ) :
    ∀ i, i ≤ j → rewindState M (predictState M x j) i = predictState M x (j - i) := by
  intro i
  induction i with
  | zero => simp [rewindState]
  | succ i ih =>
    intro hij
    rw [rewindState, ih (by omega)]
    obtain ⟨d, hd⟩ : ∃ d, j - i = d + 1 := ⟨j - (i + 1), by omega⟩
    rw [hd, show j - (i + 1) = d from by omega, predictState, minv_eq_inv,
      add_sub_cancel_right, Matrix.mulVec_mulVec,
      Matrix.nonsing_inv_mul M.F (isUnit_iff_ne_zero.mpr hdet), Matrix.one_mulVec]

theorem predictState_rewindState {n m : ℕ} (M : Model n m) (hdet : M.F.det ≠ 0)
    (x : Vec n) (j : ℕ) :
    ∀ i, i ≤ j → predictState M (rewindState M x j) i = rewindState M x (j - i) := by
  intro i
  induction i with
  | zero => simp [predictState]
  | succ i ih =>
    intro hij
    rw [predictState, ih (by omega)]
    obtain ⟨d, hd⟩ : ∃ d, j - i = d + 1 := ⟨j - (i + 1), by omega⟩
    rw [hd, show j - (i + 1) = d from by omega, rewindState, minv_eq_inv,
      Matrix.mulVec_mulVec, Matrix.mul_nonsing_inv M.F (isUnit_iff_ne_zero.mpr hdet),
      Matrix.one_mulVec, sub_add_cancel]

/-- C8: for invertible F and k ≥ 1, `rewind` applied with index k to the last
element of `predict(x, k)` returns exactly the reverse of the `predict` list
(the same set of states), and symmetrically `predict` applied to the last
element of `rewind(x, k)` returns the reverse of the `rewind` list. -/
theorem predict_rewind_roundtrip {n m : ℕ} (M : Model n m) (x : Vec n) (k : ℕ)
    (hdet : M.F.det ≠ 0) (hk : 1 ≤ k) :
    ∃ lf lb : List (Vec n),
      predictMat M x k = some lf ∧
      lf.getLast? = some (predictState M x (k - 1)) ∧
      rewindMat M (predictState M x (k - 1)) k = some lf.reverse ∧
      rewindMat M x k = some lb ∧
      lb.getLast? = some (rewindState M x (k - 1)) ∧
      predictMat M (rewindState M x (k - 1)) k = some lb.reverse := by
  refine ⟨(List.range k).map (predictState M x), (List.range k).map (rewindState M x),
    ?_, map_range_getLast? _ _ hk, ?_, ?_, map_range_getLast? _ _ hk, ?_⟩
  · rw [predictMat, if_neg (by omega)]
  · rw [rewindMat, if_neg (by omega), if_neg (by tauto), map_range_reverse]
    congr 1
    exact map_range_congr _ _ _ (fun i hi => rewindState_predictState M hdet x (k - 1) i (by omega))
  · rw [rewindMat, if_neg (by omega), if_neg (by tauto)]
  · rw [predictMat, if_neg (by omega), map_range_reverse]
    congr 1
    exact map_range_congr _ _ _ (fun i hi => predictState_rewindState M hdet x (k - 1) i (by omega))

theorem predict_rewind_roundtrip_witness :
    ∃ lf lb : List (Vec 1),
      predictMat exM ![3] 2 = some lf ∧
      lf.getLast? = some (predictState exM ![3] 1) ∧
      rewindMat exM (predictState exM ![3] 1) 2 = some lf.reverse ∧
      rewindMat exM ![3] 2 = some lb ∧
      lb.getLast? = some (rewindState exM ![3] 1) ∧
      predictMat exM (rewindState exM ![3] 1) 2 = some lb.reverse :=
  predict_rewind_roundtrip exM ![3] 2 (by norm_num [exM, Matrix.det_fin_one]) (by norm_num)

theorem kalmanRec_range_shift {α : Type} {n m : ℕ} (M : Model n m) (x0 : Vec n)
    (P0 : Mat n n) (zi : Vec m) (rest : List (Vec m)) (f : Vec n × Mat n n → α) :
    (List.range (rest.length + 1)).map (fun i => f (kalmanRec M x0 P0 (zi :: rest) (i + 1))) =
      f (kalmanStep M (x0, P0) zi) ::
        (List.range rest.length).map (fun i =>
          f (kalmanRec M (kalmanStep M (x0, P0) zi).1
            (kalmanStep M (x0, P0) zi).2 rest (i + 1))) := by
  rw [List.range_succ_eq_map, List.map_cons, List.map_map]
  congr 1
  exact map_range_congr _ _ _ (fun i hi => by
    simp only [Function.comp_apply]
    rw [show i.succ + 1 = (i + 1) + 1 from rfl, kalmanRec_cons])

/-- C1: when every innovation covariance along the run is invertible,
`estimate(x0, P0, z)` returns exactly `N = z.length` post-update state
estimates and `N` covariances (the initial `x0, P0` pair is not re-emitted),
the `i`-th pair being produced from the previous one by the predict/update
recursion `kalmanStep` (predict `x⁻ = F·x + u`, `P⁻ = F·P·Fᵗ + Q`; innovation
`y = z_i − H·x⁻`; `S = H·P⁻·Hᵗ + R`; gain `K = P⁻·Hᵗ·S⁻¹`; update
`x = x⁻ + K·y`, `P = (I − K·H)·P⁻`). -/
theorem estimate_matrix_recursion {n m : ℕ} (M : Model n m) (x0 : Vec n) (P0 : Mat n n)
    (z : List (Vec m)) (h : ∀ i, i < z.length → (innovCov M P0 i).det ≠ 0) :
    estimate M x0 P0 z =
      some ((List.range z.length).map (fun i => (kalmanRec M x0 P0 z (i + 1)).1),
        (List.range z.length).map (fun i => (kalmanRec M x0 P0 z (i + 1)).2)) := by
  induction z generalizing x0 P0 with
  | nil => rfl
  | cons zi rest ih =>
    have h0 : ¬(innovCov M P0 0).det = 0 := h 0 (by simp)
    have hstep : estStep M x0 P0 zi = some (kalmanStep M (x0, P0) zi) := by
      rw [estStep_eq, if_neg h0]
    have hshift : ∀ i, innovCov M (kalmanStep M (x0, P0) zi).2 i = innovCov M P0 (i + 1) := by
      intro i
      rw [kalmanStep_snd, innovCov_shift]
    have hrec := ih (kalmanStep M (x0, P0) zi).1 (kalmanStep M (x0, P0) zi).2
      (fun i hi => by rw [hshift]; exact h (i + 1) (by simpa using Nat.succ_lt_succ hi))
    rw [show (zi :: rest).length = rest.length + 1 from rfl,
      kalmanRec_range_shift M x0 P0 zi rest Prod.fst,
      kalmanRec_range_shift M x0 P0 zi rest Prod.snd]
    simp only [estimate, hstep, hrec]

theorem estimate_matrix_recursion_witness :
    estimate exM ![0] 0 [![1]] =
      some ((List.range 1).map (fun i => (kalmanRec exM ![0] 0 [![1]] (i + 1)).1),
        (List.range 1).map (fun i => (kalmanRec exM ![0] 0 [![1]] (i + 1)).2)) :=
  estimate_matrix_recursion exM ![0] 0 [![1]] (by
    intro i hi
    simp only [List.length_cons, List.length_nil] at hi
    have hi0 : i = 0 := by omega
    subst hi0
    norm_num [innovCov, covIter, exM, Matrix.det_one])

/-- C9: `estimate` fails as a whole, returning no partial output, exactly when
an innovation covariance within the first `N` steps of the autonomous
covariance recursion is singular; whenever it succeeds it returns the full
requested sequences, of length `N = z.length` each. -/
theorem estimate_singular_innovation {n m : ℕ} (M : Model n m) (x0 : Vec n) (P0 : Mat n n)
    (z : List (Vec m)) :
    (estimate M x0 P0 z = none ↔ ∃ i, i < z.length ∧ (innovCov M P0 i).det = 0) ∧
    (∀ outs Ps, estimate M x0 P0 z = some (outs, Ps) →
      outs.length = z.length ∧ Ps.length = z.length) := by
  induction z generalizing x0 P0 with
  | nil =>
    refine ⟨by simp [estimate], ?_⟩
    intro outs Ps hout
    have h1 : outs = [] ∧ Ps = [] := by
      simpa [estimate, Prod.ext_iff, eq_comm] using hout
    simp [h1.1, h1.2]
  | cons zi rest ih =>
    by_cases h0 : (innovCov M P0 0).det = 0
    · have hstep : estStep M x0 P0 zi = none := by
        rw [estStep_eq, if_pos h0]
      refine ⟨⟨fun _ => ⟨0, by simp, h0⟩, fun _ => ?_⟩, ?_⟩
      · simp only [estimate, hstep]
      · intro outs Ps hout
        simp only [estimate, hstep] at hout
        exact absurd hout (by simp)
    · have hstep : estStep M x0 P0 zi = some (kalmanStep M (x0, P0) zi) := by
        rw [estStep_eq, if_neg h0]
      obtain ⟨ih1, ih2⟩ := ih (kalmanStep M (x0, P0) zi).1 (kalmanStep M (x0, P0) zi).2
      have hshift : ∀ i, innovCov M (kalmanStep M (x0, P0) zi).2 i = innovCov M P0 (i + 1) := by
        intro i
        rw [kalmanStep_snd, innovCov_shift]
      refine ⟨⟨?_, ?_⟩, ?_⟩
      · intro hnone
        simp only [estimate, hstep] at hnone
        rcases hr : estimate M (kalmanStep M (x0, P0) zi).1 (kalmanStep M (x0, P0) zi).2 rest
          with _ | ⟨outs, Ps⟩
        · obtain ⟨i, hi, hdet⟩ := ih1.mp hr
          exact ⟨i + 1, by simpa using Nat.succ_lt_succ hi, by rwa [hshift] at hdet⟩
        · rw [hr] at hnone
          simp at hnone
      · rintro ⟨i, hi, hdet⟩
        rcases i with _ | i
        · exact absurd hdet h0
        · have hr : estimate M (kalmanStep M (x0, P0) zi).1 (kalmanStep M (x0, P0) zi).2 rest
              = none :=
            ih1.mpr ⟨i, by simpa using Nat.lt_of_succ_lt_succ hi, by rwa [hshift i]⟩
          simp only [estimate, hstep, hr]
      · intro outs Ps hout
        simp only [estimate, hstep] at hout
        rcases hr : estimate M (kalmanStep M (x0, P0) zi).1 (kalmanStep M (x0, P0) zi).2 rest
          with _ | ⟨outs2, Ps2⟩
        · rw [hr] at hout
          simp at hout
        · rw [hr] at hout
          obtain ⟨hl1, hl2⟩ := ih2 outs2 Ps2 hr
          have h2 : (kalmanStep M (x0, P0) zi).1 :: outs2 = outs ∧
              (kalmanStep M (x0, P0) zi).2 :: Ps2 = Ps := by
            simpa [Prod.ext_iff] using hout
          rw [← h2.1, ← h2.2]
          simp [hl1, hl2]

theorem IsPSD.add {k : ℕ} {A B : Mat k k} (hA : IsPSD A) (hB : IsPSD B) :
    IsPSD (A + B) := by
  refine ⟨by rw [Matrix.transpose_add, hA.1, hB.1], fun x => ?_⟩
  rw [Matrix.add_mulVec, Matrix.dotProduct_add]
  exact add_nonneg (hA.2 x) (hB.2 x)

theorem IsPSD.congruence {k l : ℕ} {A : Mat k k} (hA : IsPSD A) (B : Mat l k) :
    IsPSD (B * A * Bᵀ) := by
  refine ⟨?_, fun x => ?_⟩
  · calc (B * A * Bᵀ)ᵀ = Bᵀᵀ * (B * A)ᵀ := by rw [Matrix.transpose_mul]
      _ = B * (Aᵀ * Bᵀ) := by rw [Matrix.transpose_transpose, Matrix.transpose_mul]
      _ = B * A * Bᵀ := by rw [hA.1, Matrix.mul_assoc]
  · have h1 : (B * A * Bᵀ) *ᵥ x = B *ᵥ (A *ᵥ (Bᵀ *ᵥ x)) := by
      rw [Matrix.mulVec_mulVec, Matrix.mulVec_mulVec, Matrix.mul_assoc]
    rw [h1, Matrix.dotProduct_mulVec, ← Matrix.mulVec_transpose]
    exact hA.2 (Bᵀ *ᵥ x)

theorem IsPSD_zero {k : ℕ} : IsPSD (0 : Mat k k) :=
  ⟨by simp, fun x => by simp⟩

theorem IsPSD_one {k : ℕ} : IsPSD (1 : Mat k k) := by
  refine ⟨Matrix.transpose_one, fun x => ?_⟩
  rw [Matrix.one_mulVec, Matrix.dotProduct]
  exact Finset.sum_nonneg fun i _ => mul_self_nonneg (x i)

theorem joseph_identity {n m : ℕ} (A : Mat n n) (H : Mat m n) (S : Mat m m) (K : Mat n m)
    (hKS : K * S = A * Hᵀ) :
    (1 - K * H) * A * (1 - K * H)ᵀ + K * (S - H * A * Hᵀ) * Kᵀ = (1 - K * H) * A := by
  rw [Matrix.transpose_sub, Matrix.transpose_one, Matrix.transpose_mul]
  have hKS2 : K * (S * Kᵀ) = A * (Hᵀ * Kᵀ) := by
    rw [← Matrix.mul_assoc, hKS, Matrix.mul_assoc]
  simp only [Matrix.sub_mul, Matrix.mul_sub, Matrix.one_mul, Matrix.mul_one, Matrix.mul_assoc,
    hKS2]
  abel

/-- The Joseph-form argument: when `S = H·A·Hᵗ + R` is invertible and `A`, `R`
are symmetric PSD, the updated covariance `(I − K·H)·A` with the optimal gain
`K = A·Hᵗ·S⁻¹` is again symmetric PSD. -/
theorem joseph_psd {n m : ℕ} (A : Mat n n) (H : Mat m n) (R : Mat m m)
    (hA : IsPSD A) (hR : IsPSD R) (hdet : (H * A * Hᵀ + R).det ≠ 0) :
    IsPSD ((1 - A * Hᵀ * minv (H * A * Hᵀ + R) * H) * A) := by
  have hKS : A * Hᵀ * minv (H * A * Hᵀ + R) * (H * A * Hᵀ + R) = A * Hᵀ := by
    rw [Matrix.mul_assoc (A * Hᵀ), minv_eq_inv,
      Matrix.nonsing_inv_mul _ (isUnit_iff_ne_zero.mpr hdet), Matrix.mul_one]
  have hj := joseph_identity A H (H * A * Hᵀ + R) (A * Hᵀ * minv (H * A * Hᵀ + R)) hKS
  rw [add_sub_cancel_left] at hj
  rw [← hj]
  exact (hA.congruence _).add (hR.congruence _)

theorem covStep_psd {n m : ℕ} (M : Model n m) (P : Mat n n)
    (hP : IsPSD P) (hQ : IsPSD M.Q) (hR : IsPSD M.R)
    (hdet : (innovCov M P 0).det ≠ 0) :
    IsPSD (covStep M P) :=
  joseph_psd (M.F * P * M.Fᵀ + M.Q) M.H M.R ((hP.congruence M.F).add hQ) hR hdet

theorem estStep_psd {n m : ℕ} (M : Model n m) (hQ : IsPSD M.Q) (hR : IsPSD M.R)
    (x : Vec n) (P : Mat n n) (hP : IsPSD P) (zi : Vec m) (fx : Vec n) (fP : Mat n n)
    (h : estStep M x P zi = some (fx, fP)) : IsPSD fP := by
  rw [estStep_eq] at h
  by_cases h0 : (innovCov M P 0).det = 0
  · rw [if_pos h0] at h
    exact absurd h (by simp)
  · rw [if_neg h0] at h
    have h3 : kalmanStep M (x, P) zi = (fx, fP) := by
      simpa using h
    have h2 : fP = covStep M P := by
      have h4 : fP = (kalmanStep M (x, P) zi).2 := by
        rw [h3]
      rw [h4, kalmanStep_snd]
    rw [h2]
    exact covStep_psd M P hP hQ hR h0

/-- C5: for symmetric PSD `P0`, `Q` and `R`, every covariance matrix in a
successful run of `estimate` is symmetric positive semi-definite (`IsPSD`
packages both symmetry and nonnegativity of the quadratic form). -/
theorem estimate_cov_psd {n m : ℕ} (M : Model n m) (x0 : Vec n) (P0 : Mat n n)
    (z : List (Vec m)) (outs : List (Vec n)) (Ps : List (Mat n n))
    (hP0 : IsPSD P0) (hQ : IsPSD M.Q) (hR : IsPSD M.R)
    (h : estimate M x0 P0 z = some (outs, Ps)) :
    ∀ P ∈ Ps, IsPSD P := by
  induction z generalizing x0 P0 outs Ps with
  | nil =>
    have h1 : outs = [] ∧ Ps = [] := by
      simpa [estimate, Prod.ext_iff, eq_comm] using h
    rw [h1.2]
    simp
  | cons zi rest ih =>
    rcases hs : estStep M x0 P0 zi with _ | ⟨fx, fP⟩
    · simp only [estimate, hs] at h
      exact absurd h (by simp)
    · simp only [estimate, hs] at h
      rcases hr : estimate M fx fP rest with _ | ⟨outs2, Ps2⟩
      · rw [hr] at h
        exact absurd h (by simp)
      · rw [hr] at h
        have h2 : fx :: outs2 = outs ∧ fP :: Ps2 = Ps := by
          simpa [Prod.ext_iff] using h
        have hfP : IsPSD fP := estStep_psd M hQ hR x0 P0 hP0 zi fx fP hs
        rw [← h2.2]
        intro P hPmem
        rcases List.mem_cons.mp hPmem with hP | hP
        · rw [hP]
          exact hfP
        · exact ih fx fP outs2 Ps2 hfP hr P hP

theorem estimate_cov_psd_witness : IsPSD (0 : Mat 1 1) := by
  have hstep : estStep exM ![0] 0 ![1] = some (![1], 0) := by
    rw [estStep_eq, if_neg (by norm_num [innovCov, covIter, exM, Matrix.det_one])]
    congr 1
    simp [kalmanStep, exM, Matrix.mulVec, Matrix.dotProduct, Fin.sum_univ_succ]
  have hest : estimate exM ![0] 0 [![1]] = some ([![1]], [0]) := by
    simp only [estimate, hstep]
  exact estimate_cov_psd exM ![0] 0 [![1]] [![1]] [0] IsPSD_zero
    (by rw [show exM.Q = 0 from rfl]; exact IsPSD_zero)
    (by rw [show exM.R = 1 from rfl]; exact IsPSD_one)
    hest 0 (by simp)

theorem kalman_gain_observed {n m : ℕ} (M : Model n m) (hR : M.R = 0)
    (P0 : Mat n n) (x0 : Vec n) (zi : Vec m)
    (h0 : ¬(innovCov M P0 0).det = 0) :
    M.H *ᵥ (kalmanStep M (x0, P0) zi).1 = zi := by
  have hdet : (M.H * (M.F * P0 * M.Fᵀ + M.Q) * M.Hᵀ + M.R).det ≠ 0 := h0
  have hS0 : M.H * (M.F * P0 * M.Fᵀ + M.Q) * M.Hᵀ
      = M.H * (M.F * P0 * M.Fᵀ + M.Q) * M.Hᵀ + M.R := by
    rw [hR, add_zero]
  have hHK : M.H * ((M.F * P0 * M.Fᵀ + M.Q) * M.Hᵀ *
      minv (M.H * (M.F * P0 * M.Fᵀ + M.Q) * M.Hᵀ + M.R)) = 1 := by
    rw [← Matrix.mul_assoc, ← Matrix.mul_assoc]
    nth_rewrite 1 [hS0]
    rw [minv_eq_inv, Matrix.mul_nonsing_inv _ (isUnit_iff_ne_zero.mpr hdet)]
  show M.H *ᵥ (M.F *ᵥ x0 + M.u +
      ((M.F * P0 * M.Fᵀ + M.Q) * M.Hᵀ *
        minv (M.H * (M.F * P0 * M.Fᵀ + M.Q) * M.Hᵀ + M.R)) *ᵥ
      (zi - M.H *ᵥ (M.F *ᵥ x0 + M.u))) = zi
  rw [Matrix.mulVec_add, Matrix.mulVec_mulVec, hHK, Matrix.one_mulVec]
  abel

theorem estimate_observed_eq_obs {n m : ℕ} (M : Model n m) (hR : M.R = 0)
    (x0 : Vec n) (P0 : Mat n n) (z : List (Vec m)) (outs : List (Vec n))
    (Ps : List (Mat n n)) (h : estimate M x0 P0 z = some (outs, Ps)) :
    outs.length = z.length ∧
      ∀ i, i < outs.length → M.H *ᵥ outs.getD i 0 = z.getD i 0 := by
  induction z generalizing x0 P0 outs Ps with
  | nil =>
    have h1 : outs = [] ∧ Ps = [] := by
      simpa [estimate, Prod.ext_iff, eq_comm] using h
    simp [h1.1]
  | cons zi rest ih =>
    rcases hs : estStep M x0 P0 zi with _ | ⟨fx, fP⟩
    · simp only [estimate, hs] at h
      exact absurd h (by simp)
    · simp only [estimate, hs] at h
      rcases hr : estimate M fx fP rest with _ | ⟨outs2, Ps2⟩
      · rw [hr] at h
        exact absurd h (by simp)
      · rw [hr] at h
        have h2 : fx :: outs2 = outs ∧ fP :: Ps2 = Ps := by
          simpa [Prod.ext_iff] using h
        obtain ⟨ihlen, ihobs⟩ := ih fx fP outs2 Ps2 hr
        have hhead : M.H *ᵥ fx = zi := by
          rw [estStep_eq] at hs
          by_cases h0 : (innovCov M P0 0).det = 0
          · rw [if_pos h0] at hs
            exact absurd hs (by simp)
          · rw [if_neg h0] at hs
            have h3 : kalmanStep M (x0, P0) zi = (fx, fP) := by
              simpa using hs
            have h4 : fx = (kalmanStep M (x0, P0) zi).1 := by
              rw [h3]
            rw [h4]
            exact kalman_gain_observed M hR P0 x0 zi h0
        rw [← h2.1]
        refine ⟨by simp [ihlen], ?_⟩
        intro i hi
        rcases i with _ | i
        · simpa using hhead
        · simp only [List.getD_cons_succ]
          exact ihobs i (by simpa using hi)

/-- C4 (amended): with Q = 0 and R = 0, `estimate` applied to the observation
sequence produced by the noise-free run of `evolve` from `x0` reproduces the
true simulated states in the observed coordinates — `H·(i-th estimate) =
H·(i-th true state)` for every i — but not, in general, the full state vector
(see the counterexample). -/
theorem estimate_noise_free_observed {n m : ℕ} (M : Model n m) (x0 : Vec n) (P0 : Mat n n)
    (N : ℕ) (xs : List (Vec n)) (zs : List (Vec m)) (outs : List (Vec n))
    (Ps : List (Mat n n)) (hQ : M.Q = 0) (hR : M.R = 0)
    (hev : evolveMat M x0 N (fun _ => 0) (fun _ => 0) = some (xs, zs))
    (hest : estimate M x0 P0 zs = some (outs, Ps)) :
    outs.length = N ∧
      ∀ i, i < N → M.H *ᵥ outs.getD i 0 = M.H *ᵥ xs.getD i 0 := by
  rw [evolveMat] at hev
  by_cases hc : 0 < N ∧ ¬(n = 4 ∧ m = 2)
  · rw [if_pos hc] at hev
    exact absurd hev (by simp)
  · rw [if_neg hc] at hev
    have h2 : (List.range (N + 1)).map (trueState M x0 (fun _ => 0)) = xs ∧
        (List.range N).map
          (fun t => M.H *ᵥ trueState M x0 (fun _ => 0) t + (fun _ : ℕ => (0 : Vec m)) t)
          = zs := by
      simpa [Prod.ext_iff] using hev
    obtain ⟨hlen, hobs⟩ := estimate_observed_eq_obs M hR x0 P0 zs outs Ps hest
    have hzlen : zs.length = N := by
      rw [← h2.2]
      simp
    refine ⟨by rw [hlen, hzlen], ?_⟩
    intro i hi
    have hi' : i < outs.length := by
      rw [hlen, hzlen]
      exact hi
    rw [hobs i hi', ← h2.1, ← h2.2,
      map_range_getD _ _ _ _ hi, map_range_getD _ _ _ _ (by omega)]
    rw [add_zero]

/-- C4 counterexample model: position/velocity coupling `F`, position-only
observation `H`, `Q = R = 0`, no control. -/
def M4 : Model 4 2 :=
  ⟨!![1,0,1,0; 0,1,0,1; 0,0,1,0; 0,0,0,1], 0, !![1,0,0,0; 0,1,0,0], 0, 0⟩

/-- C4 counterexample: with Q = R = 0, one noise-free `evolve` step from
`![0,0,1,0]` gives true states `![0,0,1,0]`, `![1,0,1,0]` and the observation
`![0,0]`; `estimate` run from the same `x0` with `P0 = I` on that observation
returns `![0,0,1/2,0]`, which equals neither the 0-th nor the 1-st true
state, so the estimates do not reproduce the simulated states. -/
theorem estimate_noise_free_not_exact :
    M4.Q = 0 ∧ M4.R = 0 ∧
    evolveMat M4 ![0,0,1,0] 1 (fun _ => 0) (fun _ => 0) =
      some ([![0,0,1,0], ![1,0,1,0]], [![0,0]]) ∧
    (estimate M4 ![0,0,1,0] 1 [![0,0]]).map (fun p => p.1) = some [![0,0,1/2,0]] ∧
    (![0,0,(1:ℚ)/2,0]) ≠ ![0,0,1,0] ∧ (![0,0,(1:ℚ)/2,0]) ≠ ![1,0,1,0] := by
  have hx : (!![1,0,1,0; 0,1,0,1; 0,0,1,0; 0,0,0,1] : Mat 4 4) *ᵥ ![0,0,1,0] + (0 : Vec 4)
      = ![1,0,1,0] := by
    funext i
    fin_cases i <;>
      norm_num [Matrix.mulVec, Matrix.dotProduct, Fin.sum_univ_succ,
        Matrix.vecHead, Matrix.vecTail]
  have hP : (!![1,0,1,0; 0,1,0,1; 0,0,1,0; 0,0,0,1] : Mat 4 4) * (1 : Mat 4 4) *
      (!![1,0,1,0; 0,1,0,1; 0,0,1,0; 0,0,0,1] : Mat 4 4)ᵀ + 0
      = !![2,0,1,0; 0,2,0,1; 1,0,1,0; 0,1,0,1] := by
    ext i j
    fin_cases i <;> fin_cases j <;>
      norm_num [Matrix.mul_apply, Fin.sum_univ_succ, Matrix.transpose_apply,
        Matrix.one_apply, Matrix.vecHead, Matrix.vecTail]
  have hS : (!![1,0,0,0; 0,1,0,0] : Mat 2 4) *
      (!![2,0,1,0; 0,2,0,1; 1,0,1,0; 0,1,0,1] : Mat 4 4) *
      (!![1,0,0,0; 0,1,0,0] : Mat 2 4)ᵀ + 0 = !![2,0;0,2] := by
    ext i j
    fin_cases i <;> fin_cases j <;>
      norm_num [Matrix.mul_apply, Fin.sum_univ_succ, Matrix.transpose_apply,
        Matrix.vecHead, Matrix.vecTail]
  have hminv : minv (!![2,0;0,2] : Mat 2 2) = !![1/2,0;0,1/2] := by
    ext i j
    fin_cases i <;> fin_cases j <;>
      norm_num [minv, Matrix.det_fin_two_of, Matrix.adjugate_fin_two_of,
        Matrix.smul_apply, Matrix.vecHead, Matrix.vecTail]
  have hK : (!![2,0,1,0; 0,2,0,1; 1,0,1,0; 0,1,0,1] : Mat 4 4) *
      (!![1,0,0,0; 0,1,0,0] : Mat 2 4)ᵀ * (!![1/2,0;0,1/2] : Mat 2 2)
      = !![1,0; 0,1; 1/2,0; 0,1/2] := by
    ext i j
    fin_cases i <;> fin_cases j <;>
      norm_num [Matrix.mul_apply, Fin.sum_univ_succ, Matrix.transpose_apply,
        Matrix.vecHead, Matrix.vecTail]
  have hy : (![0,0] : Vec 2) - (!![1,0,0,0; 0,1,0,0] : Mat 2 4) *ᵥ ![1,0,1,0] = ![-1,0] := by
    funext i
    fin_cases i <;>
      norm_num [Matrix.mulVec, Matrix.dotProduct, Fin.sum_univ_succ,
        Matrix.vecHead, Matrix.vecTail]
  have hKy : (!![1,0; 0,1; 1/2,0; 0,1/2] : Mat 4 2) *ᵥ ![-1,0] = ![-1,0,-1/2,0] := by
    funext i
    fin_cases i <;>
      norm_num [Matrix.mulVec, Matrix.dotProduct, Fin.sum_univ_succ,
        Matrix.vecHead, Matrix.vecTail]
  have hfin : (![1,0,1,0] : Vec 4) + ![-1,0,-1/2,0] = ![0,0,1/2,0] := by
    funext i
    fin_cases i <;> norm_num [Matrix.vecHead, Matrix.vecTail]
  have hinnov : innovCov M4 1 0 = !![2,0;0,2] := by
    have e1 : innovCov M4 1 0 =
        (!![1,0,0,0; 0,1,0,0] : Mat 2 4) *
        ((!![1,0,1,0; 0,1,0,1; 0,0,1,0; 0,0,0,1] : Mat 4 4) * (1 : Mat 4 4) *
          (!![1,0,1,0; 0,1,0,1; 0,0,1,0; 0,0,0,1] : Mat 4 4)ᵀ + 0) *
        (!![1,0,0,0; 0,1,0,0] : Mat 2 4)ᵀ + 0 := rfl
    rw [e1, hP, hS]
  have hdet : ¬(innovCov M4 1 0).det = 0 := by
    rw [hinnov]
    norm_num [Matrix.det_fin_two_of]
  have hfst : (kalmanStep M4 (![0,0,1,0], 1) ![0,0]).1 = ![0,0,1/2,0] := by
    show (!![1,0,1,0; 0,1,0,1; 0,0,1,0; 0,0,0,1] : Mat 4 4) *ᵥ ![0,0,1,0] + (0 : Vec 4) +
      (((!![1,0,1,0; 0,1,0,1; 0,0,1,0; 0,0,0,1] : Mat 4 4) * (1 : Mat 4 4) *
          (!![1,0,1,0; 0,1,0,1; 0,0,1,0; 0,0,0,1] : Mat 4 4)ᵀ + 0) *
        (!![1,0,0,0; 0,1,0,0] : Mat 2 4)ᵀ *
        minv ((!![1,0,0,0; 0,1,0,0] : Mat 2 4) *
          ((!![1,0,1,0; 0,1,0,1; 0,0,1,0; 0,0,0,1] : Mat 4 4) * (1 : Mat 4 4) *
            (!![1,0,1,0; 0,1,0,1; 0,0,1,0; 0,0,0,1] : Mat 4 4)ᵀ + 0) *
          (!![1,0,0,0; 0,1,0,0] : Mat 2 4)ᵀ + 0)) *ᵥ
      (![0,0] - (!![1,0,0,0; 0,1,0,0] : Mat 2 4) *ᵥ
        ((!![1,0,1,0; 0,1,0,1; 0,0,1,0; 0,0,0,1] : Mat 4 4) *ᵥ ![0,0,1,0] + (0 : Vec 4)))
      = ![0,0,1/2,0]
    rw [hx, hP, hS, hminv, hK, hy, hKy, hfin]
  have hstep : estStep M4 ![0,0,1,0] 1 ![0,0] =
      some (![0,0,1/2,0], (kalmanStep M4 (![0,0,1,0], 1) ![0,0]).2) := by
    rw [estStep_eq, if_neg hdet, ← hfst, Prod.mk.eta]
  have hmap : (estimate M4 ![0,0,1,0] 1 [![0,0]]).map (fun p => p.1)
      = some [![0,0,1/2,0]] := by
    simp only [estimate, hstep]
    rfl
  have ht1 : trueState M4 ![0,0,1,0] (fun _ => 0) 1 = ![1,0,1,0] := by
    show M4.F *ᵥ ![0,0,1,0] + M4.u + (0 : Vec 4) = ![1,0,1,0]
    rw [add_zero]
    exact hx
  have hev : evolveMat M4 ![0,0,1,0] 1 (fun _ => 0) (fun _ => 0) =
      some ([![0,0,1,0], ![1,0,1,0]], [![0,0]]) := by
    rw [evolveMat, if_neg (by norm_num)]
    rw [show List.range 2 = [0, 1] from rfl, show List.range 1 = [0] from rfl]
    simp only [List.map_cons, List.map_nil, ht1]
    have hobs : M4.H *ᵥ (![0,0,1,0] : Vec 4) + (0 : Vec 2) = ![0,0] := by
      funext i
      fin_cases i <;>
        norm_num [M4, Matrix.mulVec, Matrix.dotProduct, Fin.sum_univ_succ,
          Matrix.vecHead, Matrix.vecTail]
    rw [show trueState M4 ![0,0,1,0] (fun _ => 0) 0 = ![0,0,1,0] from rfl]
    rw [hobs]
  refine ⟨rfl, rfl, hev, hmap, ?_, ?_⟩
  · intro h
    have h2 := congrFun h 2
    norm_num [Matrix.vecHead, Matrix.vecTail] at h2
  · intro h
    have h2 := congrFun h 2
    norm_num [Matrix.vecHead, Matrix.vecTail] at h2

/-- C4 witness model: identity transition, position-only observation,
`Q = R = 0`, no control. -/
def zM4 : Model 4 2 := ⟨1, 0, !![1,0,0,0; 0,1,0,0], 0, 0⟩

theorem estimate_noise_free_observed_witness :
    ([(0 : Vec 4)]).length = 1 ∧
      ∀ i, i < 1 → zM4.H *ᵥ ([(0 : Vec 4)]).getD i 0
        = zM4.H *ᵥ ([0, 0] : List (Vec 4)).getD i 0 := by
  have hHH : (!![1,0,0,0; 0,1,0,0] : Mat 2 4) * (!![1,0,0,0; 0,1,0,0] : Mat 2 4)ᵀ
      = (1 : Mat 2 2) := by
    ext i j
    fin_cases i <;> fin_cases j <;>
      norm_num [Matrix.mul_apply, Fin.sum_univ_succ, Matrix.transpose_apply,
        Matrix.one_apply, Matrix.vecHead, Matrix.vecTail]
  have hinnovz : innovCov zM4 1 0 = (1 : Mat 2 2) := by
    have e1 : innovCov zM4 1 0 =
        (!![1,0,0,0; 0,1,0,0] : Mat 2 4) *
        ((1 : Mat 4 4) * (1 : Mat 4 4) * (1 : Mat 4 4)ᵀ + 0) *
        (!![1,0,0,0; 0,1,0,0] : Mat 2 4)ᵀ + 0 := rfl
    rw [e1]
    simp only [Matrix.transpose_one, Matrix.mul_one, add_zero]
    exact hHH
  have hdetz : ¬(innovCov zM4 1 0).det = 0 := by
    rw [hinnovz, Matrix.det_one]
    norm_num
  have hfstz : (kalmanStep zM4 (0, 1) 0).1 = 0 := by
    show zM4.F *ᵥ (0 : Vec 4) + zM4.u +
      ((zM4.F * (1 : Mat 4 4) * zM4.Fᵀ + zM4.Q) * zM4.Hᵀ *
        minv (zM4.H * (zM4.F * (1 : Mat 4 4) * zM4.Fᵀ + zM4.Q) * zM4.Hᵀ + zM4.R)) *ᵥ
      ((0 : Vec 2) - zM4.H *ᵥ (zM4.F *ᵥ (0 : Vec 4) + zM4.u)) = 0
    simp [zM4, Matrix.mulVec_zero]
  have hstepz : estStep zM4 0 1 0 = some (0, (kalmanStep zM4 (0, 1) 0).2) := by
    rw [estStep_eq, if_neg hdetz]
    exact congrArg some (Prod.ext hfstz rfl)
  have hestz : estimate zM4 0 1 [0] = some ([0], [(kalmanStep zM4 (0, 1) 0).2]) := by
    simp only [estimate, hstepz]
  have ht1z : trueState zM4 0 (fun _ => 0) 1 = 0 := by
    show zM4.F *ᵥ trueState zM4 0 (fun _ => 0) 0 + zM4.u + (0 : Vec 4) = 0
    rw [show trueState zM4 0 (fun _ => 0) 0 = (0 : Vec 4) from rfl]
    simp [zM4, Matrix.mulVec_zero]
  have hevz : evolveMat zM4 0 1 (fun _ => 0) (fun _ => 0) = some ([0, 0], [0]) := by
    rw [evolveMat, if_neg (by norm_num)]
    rw [show List.range 2 = [0, 1] from rfl, show List.range 1 = [0] from rfl]
    simp only [List.map_cons, List.map_nil, ht1z]
    rw [show trueState zM4 0 (fun _ => 0) 0 = (0 : Vec 4) from rfl]
    simp [Matrix.mulVec_zero]
  exact estimate_noise_free_observed zM4 0 1 1 [0, 0] [0] [0]
    [(kalmanStep zM4 (0, 1) 0).2] rfl rfl hevz hestz
